import Mathlib

/-!
Verification of the Kobbelt dot-product core (src/kobbelt.hpp) and the
baseline dot products (src/dotprod.cpp).

The C++ code is templated over a floating-point type `fptype`.  The
embedding mirrors this: the algorithmic code is parametrised by an
operation record `FpOps F` (addition, sign bit, genus classifier,
two-product, ...), exactly as the template leaves those operations to the
instantiating type.  Two concrete layers complement it:

* `fpconvert`, the bit-field view of a floating value (sign bit, raw
  exponent field, raw mantissa field).  The header `genericfp.hpp` that
  defines `fpconvert`/`gfFPStruct` is not part of the sources at hand, so
  this record is modelled from the spec's bit-decomposition contract.

* a dyadic model `dyOps` of IEEE binary64 arithmetic (round to nearest,
  53-bit significand, ties to even, unbounded exponent range), used to
  instantiate the template on concrete inputs.  The header
  `accurate_math.hpp` defining `twoProd` is likewise not part of the
  sources at hand; `twoProd` is modelled from the spec's
  error-free-transform contract (hi = correctly rounded product,
  hi + lo = a*b exactly).

A central fact about the source: the three-argument overload of
`tableInsert` (kobbelt.hpp lines 27-53) receives its `std::map` parameter
BY VALUE, while the two-argument wrapper (lines 55-61) receives the map by
reference but merely delegates to the by-value overload and discards its
result.  Consequently the wrapper never modifies the caller's map.  The
embedding models both overloads faithfully: `tableInsertRec` is the
recursive by-value overload (computing the final state of the callee's
local copy), and `tableInsert` is the caller-visible wrapper.
-/

/-- Bit-field view of a floating-point value.  Modelled from the spec:
`genericfp.hpp` (the `fpconvert` struct filled in by `gfFPStruct`) is not
among the sources; the spec describes it as extracting the sign, the raw
exponent field and the raw mantissa field of the value's bit
representation ("read the exponent field and mantissa least-significant
bit of the value's bit representation"). -/
structure fpconvert where
  sign : Bool
  exponent : Nat
  mantissa : Nat
deriving DecidableEq, Repr

/-- Genus classifier, kobbelt.hpp lines 12-18:
`int genus = bitwiseVal.exponent * 2 + (bitwiseVal.mantissa & 1)`. -/
def fpGenus (val : fpconvert) : Int :=
  ((val.exponent * 2 + (val.mantissa &&& 1) : Nat) : Int)

/-- Negation of a finite IEEE value flips exactly the sign bit of its
representation and leaves the exponent and mantissa fields unchanged.
Modelled from the spec ("genus is purely a function of magnitude-class and
mantissa parity, independent of sign"). -/
def fpNegate (val : fpconvert) : fpconvert :=
  { val with sign := !val.sign }

/-- genusEqual, kobbelt.hpp lines 20-25, on the bit-field view. -/
def genusEqual (lhs rhs : fpconvert) : Bool :=
  fpGenus lhs == fpGenus rhs

/-- The operations the template parameter `fptype` supplies to the
algorithms: `+` / `+=`, `*`, `std::fma`, unary `-`, `std::signbit`, the
literal `0.0`, the genus classifier `fpGenus` and the error-free product
`twoProd` from `accurate_math.hpp`. -/
structure FpOps (F : Type) where
  zero : F
  add : F → F → F
  mul : F → F → F
  sub : F → F → F
  neg : F → F
  fma : F → F → F → F
  signbit : F → Bool
  genus : F → Int
  twoProd : F → F → F × F

/-- `genus ^ 1` (kobbelt.hpp line 32): xor with one on a two's-complement
int flips the least-significant bit, sending an even genus to its
successor and an odd genus to its predecessor (also for negative ints). -/
def genusXorOne (g : Int) : Int :=
  if g % 2 = 0 then g + 1 else g - 1

/-- The bucket table: `std::map<int, fptype>`, an ordered container with
at most one entry per key, embedded as an association list kept strictly
sorted by key. -/
abbrev Table (F : Type) := List (Int × F)

/-- `table.count(g) > 0` / `table.at(g)`: lookup of the entry keyed `g`. -/
def tableFind? {F : Type} (g : Int) : Table F → Option F
  | [] => none
  | e :: t => if e.1 = g then some e.2 else tableFind? g t

/-- `table.erase(g)`: remove the entry keyed `g` (a `std::map` holds at
most one entry per key). -/
def tableErase {F : Type} (g : Int) : Table F → Table F
  | [] => []
  | e :: t => if e.1 = g then t else e :: tableErase g t

/-- `table.insert(hint, {genus, value})`: insert keyed `genus` in key
order; like `std::map::insert`, a no-op when the key is already present.
The `hint` iterator only affects the cost of the operation, never the
resulting map, so it has no counterpart here.  (Strictly, the hint the
wrapper passes comes from a different map object than the copy the
by-value overload inserts into, which the container contract does not
allow; libstdc++ treats the hint purely as a position hint, which is the
behaviour modelled.) -/
def tableInsertEntry {F : Type} (g : Int) (v : F) : Table F → Table F
  | [] => [(g, v)]
  | e :: t =>
    if g < e.1 then (g, v) :: e :: t
    else if g = e.1 then e :: t
    else e :: tableInsertEntry g v t

theorem tableErase_length_lt {F : Type} (g : Int) (t : Table F) (v : F)
    (h : tableFind? g t = some v) : (tableErase g t).length < t.length := by
  induction t with
  | nil => simp [tableFind?] at h
  | cons e t ih =>
    by_cases he : e.1 = g
    · simp [tableErase, he]
    · simp only [tableFind?, he, if_neg, ite_false] at h
      simp only [tableErase, he, ite_false, List.length_cons]
      exact Nat.succ_lt_succ (ih h)

/-- The three-argument `tableInsert` overload, kobbelt.hpp lines 27-53.
It receives the map by value; this function computes the final contents of
that local copy.  Each recursive call first removes one entry from the
copy, so the recursion terminates. -/
def tableInsertRec {F : Type} (ops : FpOps F) (value : F) (t : Table F) :
    Table F :=
  match h1 : tableFind? (ops.genus value) t with
  | some gv =>
    tableInsertRec ops (ops.add value gv) (tableErase (ops.genus value) t)
  | none =>
    match h2 : tableFind? (genusXorOne (ops.genus value)) t with
    | some ov =>
      if ops.signbit value ≠ ops.signbit ov then
        tableInsertRec ops (ops.add value ov)
          (tableErase (genusXorOne (ops.genus value)) t)
      else
        tableInsertEntry (ops.genus value) value t
    | none => tableInsertEntry (ops.genus value) value t
termination_by t.length
decreasing_by
  · exact tableErase_length_lt (ops.genus value) t gv h1
  · exact tableErase_length_lt (genusXorOne (ops.genus value)) t ov h2

/-- The two-argument `tableInsert` wrapper, kobbelt.hpp lines 55-61.  It
computes `fpGenus(value)`, obtains the hint `table.find(genus)`, and calls
the three-argument overload — which receives the map BY VALUE (line 29).
The overload therefore works on a copy; the copy and the returned iterator
are discarded when the wrapper returns, and the caller's table is left
exactly as it was. -/
def tableInsert {F : Type} (ops : FpOps F) (value : F) (table : Table F) :
    Table F :=
  let _genus := ops.genus value
  let _discardedCopy := tableInsertRec ops value table
  table

/-- Fuel-indexed restatement of the recursion of the three-argument
`tableInsert`: one unit of fuel per call, `none` when the fuel runs out.
Used to state that the recursion terminates within `t.length + 1` calls
(each recursive call first erases one entry of the copy). -/
def tableInsertFuel {F : Type} (ops : FpOps F) :
    Nat → F → Table F → Option (Table F)
  | 0, _, _ => none
  | fuel + 1, value, t =>
    match tableFind? (ops.genus value) t with
    | some gv =>
      tableInsertFuel ops fuel (ops.add value gv)
        (tableErase (ops.genus value) t)
    | none =>
      match tableFind? (genusXorOne (ops.genus value)) t with
      | some ov =>
        if ops.signbit value ≠ ops.signbit ov then
          tableInsertFuel ops fuel (ops.add value ov)
            (tableErase (genusXorOne (ops.genus value)) t)
        else
          some (tableInsertEntry (ops.genus value) value t)
      | none => some (tableInsertEntry (ops.genus value) value t)

/-- The values the genus classifier is applied to inside one run of the
three-argument `tableInsert` (kobbelt.hpp line 31 computes
`fpGenus(value)` on entry to every call, including each recursive
retry). -/
def tableInsertRecGenusArgs {F : Type} (ops : FpOps F) (value : F)
    (t : Table F) : List F :=
  value ::
    (match h1 : tableFind? (ops.genus value) t with
     | some gv =>
       tableInsertRecGenusArgs ops (ops.add value gv)
         (tableErase (ops.genus value) t)
     | none =>
       match h2 : tableFind? (genusXorOne (ops.genus value)) t with
       | some ov =>
         if ops.signbit value ≠ ops.signbit ov then
           tableInsertRecGenusArgs ops (ops.add value ov)
             (tableErase (genusXorOne (ops.genus value)) t)
         else []
       | none => [])
termination_by t.length
decreasing_by
  · exact tableErase_length_lt (ops.genus value) t gv h1
  · exact tableErase_length_lt (genusXorOne (ops.genus value)) t ov h2

/-- The values the genus classifier is applied to by one call of the
two-argument wrapper: the wrapper itself computes `fpGenus(value)`
(kobbelt.hpp line 58), then the by-value overload classifies `value` again
and every merged retry value. -/
def tableInsertGenusArgs {F : Type} (ops : FpOps F) (value : F)
    (table : Table F) : List F :=
  value :: tableInsertRecGenusArgs ops value table

/-- The insertion phase of `kobbeltDotProd` (kobbelt.hpp lines 67-77):
starting from a fresh map, for each index the two components of
`twoProd(vec1[i], vec2[i])` are passed to the two-argument `tableInsert`
wrapper.  `insertPhase v1 v2 n` is the state of `fpTable` after the loop
iterations `i = 0, ..., n-1`. -/
def insertPhase {F : Type} (ops : FpOps F) (v1 v2 : Nat → F) :
    Nat → Table F
  | 0 => []
  | n + 1 =>
    let t := insertPhase ops v1 v2 n
    let prod := ops.twoProd (v1 n) (v2 n)
    tableInsert ops prod.2 (tableInsert ops prod.1 t)

/-- All values the genus classifier is applied to during the insertion
phase of `kobbeltDotProd` on the first `n` indices, in order. -/
def kobbeltGenusArgs {F : Type} (ops : FpOps F) (v1 v2 : Nat → F) :
    Nat → List F
  | 0 => []
  | n + 1 =>
    let t := insertPhase ops v1 v2 n
    let prod := ops.twoProd (v1 n) (v2 n)
    kobbeltGenusArgs ops v1 v2 n
      ++ tableInsertGenusArgs ops prod.1 t
      ++ tableInsertGenusArgs ops prod.2 (tableInsert ops prod.1 t)

/-- The cancellation-guard sweep, kobbelt.hpp lines 84-116, on the table
left by the insertion phase.  `none` models undefined behaviour:

* empty table — `auto itr = fpTable.end(); itr--;` (lines 84-91)
  decrements the end iterator of an empty map, which is undefined
  behaviour (the code's comment on lines 85-90 asserts the table cannot
  be empty here);
* one entry — after `itr--`, `itr` is the single entry, which is also
  `fpTable.begin()`, so the while loop (line 94) never runs and the table
  is left unchanged;
* two or more entries — the loop body erases the entry `itr` points to
  (line 97) and afterwards reads `itr` again (the same-sign branch copies
  the erased iterator into `prevPos`, line 113, and the loop condition on
  line 94 compares it), and in the opposite-sign branch `prevPos` receives
  the iterator the by-value `tableInsert` returns (line 105), which points
  into the callee's destroyed local copy, or, when the halving loop runs
  zero times, `fpTable.erase(erasePos)` (line 109) destroys the entry
  `prevPos` and `itr = prevPos` (line 110) revives it; every continuation
  of the first iteration therefore uses an invalidated iterator —
  undefined behaviour. -/
def kobbeltSweep {F : Type} (table : Table F) : Option (Table F) :=
  match table with
  | [] => none
  | [e] => some [e]
  | _ :: _ :: _ => none

/-- `kobbeltDotProd`, kobbelt.hpp lines 63-123.  `some r` when every step
of the call is defined and returns `r`; `none` when the call runs into
undefined behaviour.  After the sweep, the values remaining in the table
are summed bottom-up into `fptype dotProd = 0.0` (lines 117-122). -/
def kobbeltDotProd {F : Type} (ops : FpOps F) (v1 v2 : Nat → F)
    (len : Nat) : Option F :=
  if len = 0 then some ops.zero
  else
    let table := insertPhase ops v1 v2 len
    match kobbeltSweep table with
    | none => none
    | some t => some (t.foldl (fun acc e => ops.add acc e.2) ops.zero)

/-- Naive dot product, src/dotprod.cpp lines 25-33. -/
def dotProd {F : Type} (ops : FpOps F) (v1 v2 : Nat → F) : Nat → F
  | 0 => ops.zero
  | n + 1 => ops.add (dotProd ops v1 v2 n) (ops.mul (v1 n) (v2 n))

/-- Kahan compensated dot product, src/dotprod.cpp lines 35-47.  The
state after the loop iterations `i = 0, ..., n-1` is the pair
`(total, c)`, both starting at `0.0`. -/
def kahanState {F : Type} (ops : FpOps F) (v1 v2 : Nat → F) : Nat → F × F
  | 0 => (ops.zero, ops.zero)
  | n + 1 =>
    let s := kahanState ops v1 v2 n
    let mod := ops.fma (v1 n) (v2 n) (ops.neg s.2)
    let tmp := ops.add s.1 mod
    (tmp, ops.sub (ops.sub tmp s.1) mod)

/-- Return value of `kahanDotProd`: the `total` component. -/
def kahanDotProd {F : Type} (ops : FpOps F) (v1 v2 : Nat → F)
    (len : Nat) : F :=
  (kahanState ops v1 v2 len).1

/-- FMA dot product, src/dotprod.cpp lines 49-56. -/
def fmaDotProd {F : Type} (ops : FpOps F) (v1 v2 : Nat → F) : Nat → F
  | 0 => ops.zero
  | n + 1 => ops.fma (v1 n) (v2 n) (fmaDotProd ops v1 v2 n)

/-!
A concrete instantiation of the template: canonical dyadic numbers
`m * 2^e` (significand kept odd, or zero with `e = 0`), with arithmetic
rounded to the nearest 53-bit significand, ties to even.  This models IEEE
binary64 ("double") with an unbounded exponent range: no overflow,
underflow, NaN or infinity (the finite normal-range values the evaluations
below use behave identically in binary64).  Modelled from the spec, which
fixes the value domain only as "IEEE binary floating-point"; the
`twoProd` of the missing header `accurate_math.hpp` is modelled from the
spec's error-free-transform contract: hi is the correctly rounded product
and hi + lo equals the product exactly.
-/

/-- A dyadic number `m * 2^e` in canonical form: `m` odd, or `m = 0` and
`e = 0`.  Canonical form makes structural equality coincide with equality
of values. -/
structure Dyadic where
  m : Int
  e : Int
deriving DecidableEq, Repr

/-- Strip factors of two off `m` (with enough fuel), producing the
canonical representation of `m * 2^e`. -/
def dyNormalize : Nat → Int → Int → Dyadic
  | 0, m, e => if m = 0 then ⟨0, 0⟩ else ⟨m, e⟩
  | f + 1, m, e =>
    if m = 0 then ⟨0, 0⟩
    else if m % 2 = 0 then dyNormalize f (m / 2) (e + 1)
    else ⟨m, e⟩

/-- Canonical dyadic with value `m * 2^e`. -/
def Dyadic.norm (m e : Int) : Dyadic := dyNormalize m.natAbs m e

/-- Exact negation (IEEE negation of a finite value is exact). -/
def dyNeg (a : Dyadic) : Dyadic := ⟨-a.m, a.e⟩

/-- Exact addition of dyadics (no precision bound). -/
def dyAdd (a b : Dyadic) : Dyadic :=
  let e := min a.e b.e
  Dyadic.norm
    (a.m * ((2 ^ (a.e - e).toNat : Nat) : Int) +
      b.m * ((2 ^ (b.e - e).toNat : Nat) : Int)) e

/-- Exact product of dyadics. -/
def dyMulExact (a b : Dyadic) : Dyadic := Dyadic.norm (a.m * b.m) (a.e + b.e)

/-- Number of binary digits of `n` (0 for 0), by structural recursion. -/
def bitLenAux : Nat → Nat → Nat
  | 0, _ => 0
  | f + 1, n => if n = 0 then 0 else bitLenAux f (n / 2) + 1

/-- Bit length of a natural number. -/
def bitLength (n : Nat) : Nat := bitLenAux n n

/-- Round a dyadic to a 53-bit significand, to nearest, ties to even: the
binary64 rounding of an exact intermediate result (unbounded exponent
range). -/
def dyRound53 (x : Dyadic) : Dyadic :=
  if x.m = 0 then ⟨0, 0⟩
  else
    let n := x.m.natAbs
    let bits := bitLength n
    if bits ≤ 53 then x
    else
      let shift := bits - 53
      let q0 := n / 2 ^ shift
      let r := n % 2 ^ shift
      let half := 2 ^ (shift - 1)
      let q : Nat :=
        if r < half then q0
        else if half < r then q0 + 1
        else if q0 % 2 = 0 then q0 else q0 + 1
      let sign : Int := if x.m < 0 then -1 else 1
      Dyadic.norm (sign * (q : Int)) (x.e + (shift : Int))

/-- The genus (kobbelt.hpp lines 12-18) of the binary64 value `m * 2^e`:
twice the raw (biased, bias 1023) exponent field plus the low bit of the
52-bit mantissa field.  `0.0` has both fields zero, hence genus 0.  Values
in the normal range are assumed (the unbounded-exponent idealization of
this model). -/
def dyGenus (x : Dyadic) : Int :=
  if x.m = 0 then 0
  else
    let n := x.m.natAbs
    let b := bitLength n - 1
    let lsb : Int :=
      if b ≤ 52 then (((n * 2 ^ (52 - b)) % 2 : Nat) : Int)
      else (((n / 2 ^ (b - 52)) % 2 : Nat) : Int)
    2 * (x.e + (b : Int) + 1023) + lsb

/-- The binary64 template instantiation used for concrete evaluations:
arithmetic operations round to 53 bits; `twoProd` returns the correctly
rounded product and the exact remainder (the spec's EFT contract). -/
def dyOps : FpOps Dyadic where
  zero := ⟨0, 0⟩
  add a b := dyRound53 (dyAdd a b)
  mul a b := dyRound53 (dyMulExact a b)
  sub a b := dyRound53 (dyAdd a (dyNeg b))
  neg := dyNeg
  fma a b c := dyRound53 (dyAdd (dyMulExact a b) c)
  signbit x := decide (x.m < 0)
  genus := dyGenus
  twoProd a b :=
    (dyRound53 (dyMulExact a b),
      dyAdd (dyMulExact a b) (dyNeg (dyRound53 (dyMulExact a b))))


/-- The table is strictly sorted by genus id, as a `std::map<int, fptype>`
is by construction. -/
def TableSorted {F : Type} (t : Table F) : Prop :=
  List.Pairwise (fun a b => a.1 < b.1) t

/-- At most one entry per genus id: the keys of the table are pairwise
distinct. -/
def AtMostOnePerGenus {F : Type} (t : Table F) : Prop :=
  (t.map Prod.fst).Nodup

/-- No two entries of the table have paired genus ids (ids differing in
exactly the least-significant bit) and different signs. -/
def PairedSignsAgree {F : Type} (ops : FpOps F) (t : Table F) : Prop :=
  ∀ p ∈ t, ∀ q ∈ t, q.1 = genusXorOne p.1 →
    ops.signbit p.2 = ops.signbit q.2

theorem genusXorOne_involutive (g : Int) : genusXorOne (genusXorOne g) = g := by
  unfold genusXorOne
  rcases Int.emod_two_eq g with h | h
  · have h1 : (g + 1) % 2 = 1 := by omega
    simp [h, h1]
  · have h1 : (g - 1) % 2 = 0 := by omega
    simp [h, h1]

theorem genusXorOne_ne (g : Int) : genusXorOne g ≠ g := by
  unfold genusXorOne
  split <;> omega

theorem tableErase_sublist {F : Type} (g : Int) (t : Table F) :
    List.Sublist (tableErase g t) t := by
  induction t with
  | nil => simp [tableErase]
  | cons e t ih =>
    by_cases he : e.1 = g
    · simpa [tableErase, he] using List.sublist_cons_self t e
    · simpa [tableErase, he] using ih.cons₂ e

theorem tableErase_sorted {F : Type} {g : Int} {t : Table F}
    (h : TableSorted t) : TableSorted (tableErase g t) :=
  List.Pairwise.sublist (tableErase_sublist g t) h

theorem tableErase_paired {F : Type} {ops : FpOps F} {g : Int}
    {t : Table F} (h : PairedSignsAgree ops t) :
    PairedSignsAgree ops (tableErase g t) := by
  intro p hp q hq hpair
  exact h p ((tableErase_sublist g t).subset hp)
    q ((tableErase_sublist g t).subset hq) hpair

theorem tableFind?_eq_none {F : Type} {g : Int} {t : Table F}
    (h : tableFind? g t = none) : ∀ p ∈ t, p.1 ≠ g := by
  induction t with
  | nil => simp
  | cons e t ih =>
    intro p hp
    by_cases he : e.1 = g
    · simp [tableFind?, he] at h
    · rcases List.mem_cons.mp hp with rfl | hp
      · exact he
      · exact ih (by simpa [tableFind?, he] using h) p hp

theorem tableFind?_mem {F : Type} {g : Int} {t : Table F} {v : F}
    (h : tableFind? g t = some v) : (g, v) ∈ t := by
  induction t with
  | nil => simp [tableFind?] at h
  | cons e t ih =>
    by_cases he : e.1 = g
    · simp only [tableFind?, if_pos he, Option.some.injEq] at h
      have hev : (g, v) = e := by
        cases e
        simp_all
      simp only [List.mem_cons]
      exact Or.inl hev
    · simp only [tableFind?, if_neg he] at h
      exact List.mem_cons_of_mem e (ih h)

theorem TableSorted.find?_of_mem {F : Type} {t : Table F}
    (hs : TableSorted t) {p : Int × F} (hp : p ∈ t) :
    tableFind? p.1 t = some p.2 := by
  induction t with
  | nil => simp at hp
  | cons e t ih =>
    rcases List.mem_cons.mp hp with rfl | hp
    · simp [tableFind?]
    · have he : e.1 ≠ p.1 := by
        have := (List.pairwise_cons.mp hs).1 p hp
        omega
      have ht : TableSorted t := (List.pairwise_cons.mp hs).2
      simp [tableFind?, he, ih ht hp]

theorem mem_tableInsertEntry {F : Type} {g : Int} {v : F} {t : Table F}
    {x : Int × F} (h : x ∈ tableInsertEntry g v t) :
    x = (g, v) ∨ x ∈ t := by
  induction t with
  | nil => simpa [tableInsertEntry] using h
  | cons e t ih =>
    by_cases hlt : g < e.1
    · simp only [tableInsertEntry, if_pos hlt] at h
      rcases List.mem_cons.mp h with rfl | h
      · exact Or.inl rfl
      · exact Or.inr h
    · by_cases heq : g = e.1
      · simp only [tableInsertEntry, if_neg hlt, if_pos heq] at h
        exact Or.inr h
      · simp only [tableInsertEntry, if_neg hlt, if_neg heq] at h
        rcases List.mem_cons.mp h with rfl | h
        · exact Or.inr (List.mem_cons_self x t)
        · rcases ih h with hx | hx
          · exact Or.inl hx
          · exact Or.inr (List.mem_cons_of_mem e hx)

theorem TableSorted.insertEntry {F : Type} {t : Table F}
    (hs : TableSorted t) (g : Int) (v : F) :
    TableSorted (tableInsertEntry g v t) := by
  induction t with
  | nil => simp [tableInsertEntry, TableSorted]
  | cons e t ih =>
    obtain ⟨he, ht⟩ := List.pairwise_cons.mp hs
    by_cases hlt : g < e.1
    · simp only [tableInsertEntry, if_pos hlt]
      refine List.pairwise_cons.mpr ⟨?_, hs⟩
      intro x hx
      rcases List.mem_cons.mp hx with rfl | hx
      · exact hlt
      · exact lt_trans hlt (he x hx)
    · by_cases heq : g = e.1
      · simp only [tableInsertEntry, if_neg hlt, if_pos heq]
        exact hs
      · simp only [tableInsertEntry, if_neg hlt, if_neg heq]
        refine List.pairwise_cons.mpr ⟨?_, ih ht⟩
        intro x hx
        rcases mem_tableInsertEntry hx with rfl | hx
        · omega
        · exact he x hx

theorem tableInsertEntry_paired {F : Type} (ops : FpOps F) {g : Int}
    {v : F} {t : Table F} (hs : TableSorted t)
    (hpair : ∀ q ∈ t, q.1 = genusXorOne g → ops.signbit q.2 = ops.signbit v)
    (hp : PairedSignsAgree ops t) :
    PairedSignsAgree ops (tableInsertEntry g v t) := by
  intro p hpm q hqm hq
  rcases mem_tableInsertEntry hpm with rfl | hpold
  · rcases mem_tableInsertEntry hqm with rfl | hqold
    · exact absurd hq.symm (genusXorOne_ne g)
    · exact (hpair q hqold hq).symm
  · rcases mem_tableInsertEntry hqm with rfl | hqold
    · have hg : g = genusXorOne p.1 := hq
      have hp1 : p.1 = genusXorOne g := by
        rw [hg]
        exact (genusXorOne_involutive p.1).symm
      exact hpair p hpold hp1
    · exact hp p hpold q hqold hq

theorem tableInsertFuel_invariant {F : Type} (ops : FpOps F) :
    ∀ (n : Nat) (value : F) (t t' : Table F),
      TableSorted t → PairedSignsAgree ops t →
      tableInsertFuel ops n value t = some t' →
      TableSorted t' ∧ PairedSignsAgree ops t' := by
  intro n
  induction n with
  | zero =>
    intro value t t' _ _ h
    simp [tableInsertFuel] at h
  | succ n ih =>
    intro value t t' hs hp h
    simp only [tableInsertFuel] at h
    split at h
    · exact ih _ _ _ (tableErase_sorted hs) (tableErase_paired hp) h
    · rename_i heq1
      split at h
      · rename_i ov heq2
        split at h
        · exact ih _ _ _ (tableErase_sorted hs) (tableErase_paired hp) h
        · rename_i hsb
          injection h with h
          subst h
          refine ⟨hs.insertEntry _ _, tableInsertEntry_paired ops hs ?_ hp⟩
          intro q hq hqpair
          have hf := hs.find?_of_mem hq
          rw [hqpair, heq2] at hf
          injection hf with hf
          rw [hf] at hsb
          exact (not_ne_iff.mp hsb).symm
      · rename_i heq2
        injection h with h
        subst h
        refine ⟨hs.insertEntry _ _, tableInsertEntry_paired ops hs ?_ hp⟩
        intro q hq hqpair
        exact absurd hqpair (tableFind?_eq_none heq2 q hq)

theorem tableInsertRec_eq_same {F : Type} (ops : FpOps F) {value gv : F}
    {t : Table F} (h : tableFind? (ops.genus value) t = some gv) :
    tableInsertRec ops value t =
      tableInsertRec ops (ops.add value gv) (tableErase (ops.genus value) t) := by
  rw [tableInsertRec]
  split
  · rename_i gv2 heq
    rw [h] at heq
    injection heq with heq
    rw [heq]
  · rename_i heq
    rw [h] at heq
    cases heq

theorem tableInsertRec_eq_pair {F : Type} (ops : FpOps F) {value ov : F}
    {t : Table F} (h1 : tableFind? (ops.genus value) t = none)
    (h2 : tableFind? (genusXorOne (ops.genus value)) t = some ov)
    (hsb : ops.signbit value ≠ ops.signbit ov) :
    tableInsertRec ops value t =
      tableInsertRec ops (ops.add value ov)
        (tableErase (genusXorOne (ops.genus value)) t) := by
  rw [tableInsertRec]
  split
  · rename_i gv2 heq
    rw [h1] at heq
    cases heq
  · split
    · rename_i ov2 heq
      rw [h2] at heq
      injection heq with heq
      subst heq
      rw [if_pos hsb]
    · rename_i heq
      rw [h2] at heq
      cases heq

theorem tableInsertRec_eq_entry_same_sign {F : Type} (ops : FpOps F)
    {value ov : F} {t : Table F}
    (h1 : tableFind? (ops.genus value) t = none)
    (h2 : tableFind? (genusXorOne (ops.genus value)) t = some ov)
    (hsb : ¬ops.signbit value ≠ ops.signbit ov) :
    tableInsertRec ops value t = tableInsertEntry (ops.genus value) value t := by
  rw [tableInsertRec]
  split
  · rename_i gv2 heq
    rw [h1] at heq
    cases heq
  · split
    · rename_i ov2 heq
      rw [h2] at heq
      injection heq with heq
      subst heq
      rw [if_neg hsb]
    · rfl

theorem tableInsertRec_eq_entry_none {F : Type} (ops : FpOps F)
    {value : F} {t : Table F}
    (h1 : tableFind? (ops.genus value) t = none)
    (h2 : tableFind? (genusXorOne (ops.genus value)) t = none) :
    tableInsertRec ops value t = tableInsertEntry (ops.genus value) value t := by
  rw [tableInsertRec]
  split
  · rename_i gv2 heq
    rw [h1] at heq
    cases heq
  · split
    · rename_i ov2 heq
      rw [h2] at heq
      cases heq
    · rfl

theorem tableInsertFuel_adequate {F : Type} (ops : FpOps F) :
    ∀ (n : Nat) (value : F) (t : Table F), t.length < n →
      tableInsertFuel ops n value t = some (tableInsertRec ops value t) := by
  intro n
  induction n with
  | zero =>
    intro value t h
    exact absurd h (Nat.not_lt_zero _)
  | succ n ih =>
    intro value t hlen
    simp only [tableInsertFuel]
    split
    · rename_i gv heq
      rw [tableInsertRec_eq_same ops heq]
      refine ih _ _ ?_
      have := tableErase_length_lt (ops.genus value) t gv heq
      omega
    · rename_i heq1
      split
      · rename_i ov heq2
        split
        · rename_i hsb
          rw [tableInsertRec_eq_pair ops heq1 heq2 hsb]
          refine ih _ _ ?_
          have := tableErase_length_lt (genusXorOne (ops.genus value)) t ov heq2
          omega
        · rename_i hsb
          rw [tableInsertRec_eq_entry_same_sign ops heq1 heq2 hsb]
      · rename_i heq2
        rw [tableInsertRec_eq_entry_none ops heq1 heq2]

theorem tableInsertRec_invariant {F : Type} (ops : FpOps F) (value : F)
    (t : Table F) (hs : TableSorted t) (hp : PairedSignsAgree ops t) :
    TableSorted (tableInsertRec ops value t) ∧
      PairedSignsAgree ops (tableInsertRec ops value t) :=
  tableInsertFuel_invariant ops (t.length + 1) value t _ hs hp
    (tableInsertFuel_adequate ops (t.length + 1) value t (Nat.lt_succ_self _))

/-- Result of a whole sequence of calls of the recursive (three-argument)
`tableInsert`, threaded through an initially empty table. -/
def tableInsertRecSeq {F : Type} (ops : FpOps F) (vs : List F) : Table F :=
  vs.foldl (fun t v => tableInsertRec ops v t) []

theorem tableInsertRecSeq_invariant {F : Type} (ops : FpOps F)
    (vs : List F) :
    TableSorted (tableInsertRecSeq ops vs) ∧
      PairedSignsAgree ops (tableInsertRecSeq ops vs) := by
  suffices h : ∀ (t : Table F), TableSorted t → PairedSignsAgree ops t →
      TableSorted (vs.foldl (fun t v => tableInsertRec ops v t) t) ∧
        PairedSignsAgree ops (vs.foldl (fun t v => tableInsertRec ops v t) t) by
    exact h [] (List.Pairwise.nil) (by intro p hp; simp at hp)
  induction vs with
  | nil => intro t hs hp; exact ⟨hs, hp⟩
  | cons v vs ih =>
    intro t hs hp
    obtain ⟨hs1, hp1⟩ := tableInsertRec_invariant ops v t hs hp
    exact ih _ hs1 hp1

theorem TableSorted.atMostOne {F : Type} {t : Table F}
    (hs : TableSorted t) : AtMostOnePerGenus t := by
  unfold AtMostOnePerGenus List.Nodup
  rw [List.pairwise_map]
  exact hs.imp (fun h => ne_of_lt h)

theorem tableInsert_id {F : Type} (ops : FpOps F) (v : F) (t : Table F) :
    tableInsert ops v t = t := rfl

theorem insertPhase_eq_nil {F : Type} (ops : FpOps F) (v1 v2 : Nat → F) :
    ∀ n, insertPhase ops v1 v2 n = [] := by
  intro n
  induction n with
  | zero => rfl
  | succ n ih => simp [insertPhase, tableInsert_id, ih]

theorem kobbeltDotProd_succ_none {F : Type} (ops : FpOps F)
    (v1 v2 : Nat → F) (n : Nat) : kobbeltDotProd ops v1 v2 (n + 1) = none := by
  simp [kobbeltDotProd, insertPhase_eq_nil, kobbeltSweep]

theorem tableInsertRecGenusArgs_nil {F : Type} (ops : FpOps F) (v : F) :
    tableInsertRecGenusArgs ops v [] = [v] := by
  rw [tableInsertRecGenusArgs]
  rfl

/-- Claim C1: the two-argument `tableInsert(value, table)` is claimed to
mutate the caller's table so that it reflects the insertion.  In fact the
three-argument overload it delegates to receives the map by value
(kobbelt.hpp line 29), so the caller's table is returned unchanged — for
every instantiation, every value and every table.  Concretely, inserting
the value 1.0 into an empty table leaves the caller's table empty (its
entries sum to 0, not to 1), even though the discarded local copy did
receive the entry (1.0 has raw exponent field 1023 and mantissa low bit 0,
hence genus 2046). -/
theorem tableInsert_discards_insertion :
    (∀ (F : Type) (ops : FpOps F) (value : F) (table : Table F),
        tableInsert ops value table = table) ∧
      tableInsert dyOps ⟨1, 0⟩ [] = [] ∧
      tableInsertRec dyOps ⟨1, 0⟩ [] = [(2046, ⟨1, 0⟩)] := by
  refine ⟨fun F ops v t => rfl, rfl, ?_⟩
  have h1 : tableFind? (dyOps.genus ⟨1, 0⟩) ([] : Table Dyadic) = none := rfl
  have h2 : tableFind? (genusXorOne (dyOps.genus ⟨1, 0⟩))
      ([] : Table Dyadic) = none := rfl
  rw [tableInsertRec_eq_entry_none dyOps h1 h2]
  decide

/-- Claim C2: for every positive length, the bucket table is claimed to be
non-empty when the cancellation-guard sweep begins.  In fact every
insertion of the loop on kobbelt.hpp lines 69-77 is lost (the insertion
happens on a by-value copy of the map), so the table is empty when the
sweep starts and `itr--` on the end iterator of the empty map
(kobbelt.hpp line 91) is undefined behaviour — for every instantiation
and every input: the embedded call returns `none` (undefined
behaviour). -/
theorem kobbelt_table_empty_at_sweep :
    ∀ (F : Type) (ops : FpOps F) (v1 v2 : Nat → F) (len : Nat),
      insertPhase ops v1 v2 (len + 1) = [] ∧
        kobbeltDotProd ops v1 v2 (len + 1) = none :=
  fun _ ops v1 v2 len =>
    ⟨insertPhase_eq_nil ops v1 v2 (len + 1),
      kobbeltDotProd_succ_none ops v1 v2 len⟩

/-- Claim C3: after every merge-insert (the recursive three-argument
`tableInsert`, kobbelt.hpp lines 27-53), for any sequence of insertions
starting from the empty table, the resulting table holds at most one entry
per genus id and no two entries with paired genus ids and different signs.
Quantifying over all value sequences covers the table after every single
call of any longer sequence. -/
theorem tableInsertRec_no_conflict :
    ∀ (F : Type) (ops : FpOps F) (vs : List F),
      AtMostOnePerGenus (tableInsertRecSeq ops vs) ∧
        PairedSignsAgree ops (tableInsertRecSeq ops vs) :=
  fun _ ops vs =>
    ⟨(tableInsertRecSeq_invariant ops vs).1.atMostOne,
      (tableInsertRecSeq_invariant ops vs).2⟩

/-- Claim C4 (amended): during the insertion phase of `kobbeltDotProd`,
the genus classifier is applied to both components of every product
`twoProd(vec1[i], vec2[i])` — including the low component, which is
exactly zero whenever the product is exactly representable.  The claim
that the algorithm never classifies a zero value is therefore false (see
the counterexample theorem). -/
theorem kobbelt_classifies_every_product_component :
    ∀ (F : Type) (ops : FpOps F) (v1 v2 : Nat → F) (len i : Nat),
      i < len →
      (ops.twoProd (v1 i) (v2 i)).1 ∈ kobbeltGenusArgs ops v1 v2 len ∧
        (ops.twoProd (v1 i) (v2 i)).2 ∈ kobbeltGenusArgs ops v1 v2 len := by
  intro F ops v1 v2 len
  induction len with
  | zero =>
    intro i h
    exact absurd h (Nat.not_lt_zero i)
  | succ n ih =>
    intro i h
    rcases Nat.lt_succ_iff_lt_or_eq.mp h with h | rfl
    · obtain ⟨h1, h2⟩ := ih i h
      simp only [kobbeltGenusArgs]
      exact ⟨List.mem_append_left _ (List.mem_append_left _ h1),
        List.mem_append_left _ (List.mem_append_left _ h2)⟩
    · simp only [kobbeltGenusArgs, tableInsertGenusArgs]
      exact ⟨List.mem_append_left _
          (List.mem_append_right _ (List.mem_cons_self _ _)),
        List.mem_append_right _ (List.mem_cons_self _ _)⟩

/-- Claim C4, witness: at vectors both equal to the constant 1.0 and
length 1, the low component of the product is classified. -/
theorem kobbelt_classifies_witness :
    (dyOps.twoProd ((fun _ => (⟨1, 0⟩ : Dyadic)) 0)
        ((fun _ => (⟨1, 0⟩ : Dyadic)) 0)).2 ∈
      kobbeltGenusArgs dyOps (fun _ => ⟨1, 0⟩) (fun _ => ⟨1, 0⟩) 1 :=
  (kobbelt_classifies_every_product_component Dyadic dyOps
    (fun _ => ⟨1, 0⟩) (fun _ => ⟨1, 0⟩) 1 0 (by decide)).2

/-- Claim C4, counterexample to the claim as stated: with
vec1 = vec2 = [1.0], the product 1.0 * 1.0 is exact, so `twoProd` returns
the low component 0.0, and the call `tableInsert(prod[1], fpTable)`
(kobbelt.hpp line 76) applies `fpGenus` to the zero value — contradicting
"the genus classifier is never applied to a value that is zero". -/
theorem fpGenus_applied_to_zero :
    (dyOps.twoProd ⟨1, 0⟩ ⟨1, 0⟩).2 = ⟨0, 0⟩ ∧
      (⟨0, 0⟩ : Dyadic) ∈
        kobbeltGenusArgs dyOps (fun _ => ⟨1, 0⟩) (fun _ => ⟨1, 0⟩) 1 := by
  refine ⟨by decide, ?_⟩
  have key : kobbeltGenusArgs dyOps (fun _ => ⟨1, 0⟩) (fun _ => ⟨1, 0⟩) 1 =
      [] ++ ((dyOps.twoProd ⟨1, 0⟩ ⟨1, 0⟩).1 ::
          tableInsertRecGenusArgs dyOps (dyOps.twoProd ⟨1, 0⟩ ⟨1, 0⟩).1 []) ++
        ((dyOps.twoProd ⟨1, 0⟩ ⟨1, 0⟩).2 ::
          tableInsertRecGenusArgs dyOps (dyOps.twoProd ⟨1, 0⟩ ⟨1, 0⟩).2 []) := rfl
  rw [key, tableInsertRecGenusArgs_nil, tableInsertRecGenusArgs_nil]
  decide

/-- Claim C5: the claim assumes a completed cancellation-guard sweep whose
surviving values can then be summed in any order.  On the source, for any
positive length the sweep never completes: the insertions were lost to a
by-value map copy, so the sweep starts by decrementing the end iterator of
an empty map — undefined behaviour before any post-sweep table exists.
Evaluated at the spec's own two-element example, vec1 = [1e16, 3.0]
(1e16 = 152587890625 * 2^16), vec2 = [1.0, 1.0]. -/
theorem kobbelt_sweep_never_completes :
    kobbeltDotProd dyOps
        (fun i => if i = 0 then ⟨152587890625, 16⟩ else ⟨3, 0⟩)
        (fun _ => ⟨1, 0⟩) 2 = none :=
  kobbeltDotProd_succ_none dyOps
    (fun i => if i = 0 then ⟨152587890625, 16⟩ else ⟨3, 0⟩)
    (fun _ => ⟨1, 0⟩) 1

/-- Claim C6: for every value, the genus equals twice the exponent field
plus the least-significant bit of the mantissa field. -/
theorem fpGenus_two_exponent_plus_mantissa_lsb :
    ∀ val : fpconvert,
      fpGenus val = 2 * (val.exponent : Int) + (val.mantissa : Int) % 2 := by
  intro val
  unfold fpGenus
  rw [Nat.and_one_is_mod]
  push_cast
  ring

/-- Claim C7: the genus of a value is independent of its sign: negation
flips only the sign bit of the representation, and the genus reads only
the exponent and mantissa fields. -/
theorem fpGenus_neg :
    ∀ val : fpconvert, fpGenus (fpNegate val) = fpGenus val :=
  fun _ => rfl

/-- Claim C8: every call of the recursive three-argument `tableInsert`
terminates; each recursive call strictly reduces the number of entries of
the (copied) table, so the recursion completes within `table size + 1`
calls: the fuel-indexed version of the recursion, given that much fuel,
returns the same result instead of running out. -/
theorem tableInsertRec_terminates :
    ∀ (F : Type) (ops : FpOps F) (value : F) (t : Table F),
      tableInsertFuel ops (t.length + 1) value t =
        some (tableInsertRec ops value t) :=
  fun _ ops value t =>
    tableInsertFuel_adequate ops (t.length + 1) value t (Nat.lt_succ_self _)

/-- Claim C9: with length zero, `kobbeltDotProd` returns the additive
identity 0.0 immediately (kobbelt.hpp line 66), for every pair of input
vectors; the early return precedes the construction of the bucket
table. -/
theorem kobbeltDotProd_zero_len :
    ∀ (F : Type) (ops : FpOps F) (v1 v2 : Nat → F),
      kobbeltDotProd ops v1 v2 0 = some ops.zero :=
  fun _ _ _ _ => rfl

/-- Claim C10: the naive, Kahan and FMA dot products all return exactly
0.0 when called with length 0, for every pair of input vectors (their
loops do not run, so the vectors are never read). -/
theorem baselines_zero_len :
    ∀ (F : Type) (ops : FpOps F) (v1 v2 : Nat → F),
      dotProd ops v1 v2 0 = ops.zero ∧
        kahanDotProd ops v1 v2 0 = ops.zero ∧
        fmaDotProd ops v1 v2 0 = ops.zero :=
  fun _ _ _ _ => ⟨rfl, rfl, rfl⟩
